import Mathlib

/-!
Verification of the LKJ prior family of this repository.

The repository excerpt under verification ships the test suite
`test/priors/test_lkj_prior.py` together with the specification of the prior
classes `LKJPrior`, `LKJCholeskyFactorPrior`, `LKJCovariancePrior`, the
validators `_is_valid_correlation_matrix` and
`_is_valid_correlation_matrix_cholesky_factor`, and the helper
`SmoothedBoxPrior`.  The implementation file `gpytorch/priors/lkj_prior.py`
itself is not part of the excerpt, so the definitions below are modelled from
the specification text, with every free constant pinned down by the literal
numeric values asserted in the test file.

Real numbers model the floating point tensors; matrices of size `m` are
`Matrix (Fin m) (Fin m) ℝ`; a batch of concentration parameters is a
`List ℝ`; python exceptions are modelled by `Except String`.
-/

open scoped BigOperators

/-- Modelled from the spec: default tolerance of the correlation-matrix
validators ("`tol` defaults to a small constant (e.g. 1e-6)"). -/
noncomputable def defaultTol : ℝ := 1 / 1000000

/-- Modelled from the spec: `_is_valid_correlation_matrix` — every matrix in
the batch is square (enforced by the type), symmetric within `tol`, has unit
diagonal within `tol`, and is positive semi-definite (smallest eigenvalue
at least `-tol`, stated through the quadratic form). -/
def isValidCorrelationMatrix {m : ℕ} (S : Matrix (Fin m) (Fin m) ℝ) (tol : ℝ) : Prop :=
  (∀ i j, |S i j - S j i| ≤ tol) ∧ (∀ i, |S i i - 1| ≤ tol) ∧
    ∀ x : Fin m → ℝ, -(tol * ∑ i, x i ^ 2) ≤ ∑ i, ∑ j, x i * S i j * x j

/-- Modelled from the spec: `_is_valid_correlation_matrix_cholesky_factor` —
the matrix is lower-triangular and each row has unit Euclidean norm within
`tol`. -/
def isValidCorrelationMatrixCholeskyFactor {m : ℕ} (L : Matrix (Fin m) (Fin m) ℝ)
    (tol : ℝ) : Prop :=
  (∀ i j : Fin m, (i : ℕ) < (j : ℕ) → L i j = 0) ∧ ∀ i, |(∑ j, L i j ^ 2) - 1| ≤ tol

/-- Modelled from the spec: the log-normalizing constant `C(n, eta)` of the
LKJ prior, "a sum of log-gamma terms over dimension and concentration",
precomputed at construction.  The concrete formula is fixed by the literal
values pinned in `test/priors/test_lkj_prior.py`
(`C(2, 0.5) = 2*log(pi) - 6*log(2) ≈ -1.86942`,
`C(2, 1.5) = 2*log(pi) - 4*log(2) ≈ -0.483129`). -/
noncomputable def lkjC (n : ℕ) (eta : ℝ) : ℝ :=
  (∑ i ∈ Finset.range n, (2 * eta - 2 + (i : ℝ)) * (i : ℝ)) * Real.log 2 +
    (n : ℝ) * ∑ i ∈ Finset.range n,
      (2 * Real.log (Real.Gamma ((i : ℝ) / 2 + 1)) - Real.log (Real.Gamma ((i : ℝ) + 2)))

/-- Modelled from the spec: an `LKJPrior` over `n x n` correlation matrices.
`n` is kept as a rational so that construction from a non-integer (as in
`LKJPrior(1.5, 1.0)`) is representable; `etas` is the (batch of)
concentration parameter(s), a singleton for a scalar `eta`. -/
structure LKJPrior where
  n : ℚ
  etas : List ℝ

/-- Modelled from the spec: an `LKJCholeskyFactorPrior` over Cholesky factors
of `n x n` correlation matrices; it shares the constructor and the
normalizing constant with `LKJPrior` and differs only in `log_prob`. -/
structure LKJCholeskyFactorPrior where
  n : ℚ
  etas : List ℝ

/-- Modelled from the spec: a `SmoothedBoxPrior` with bounds `a ≤ b` and
smoothing width `sigma` (default `0.01`), the standard-deviation prior used
by the covariance-prior tests.  Homogeneous (scalar-bound) case. -/
structure SmoothedBoxPrior where
  a : ℝ
  b : ℝ
  sigma : ℝ

/-- Modelled from the spec: an `LKJCovariancePrior` composing an internal
correlation prior with an independent marginal-standard-deviation prior. -/
structure LKJCovariancePrior where
  correlation_prior : LKJPrior
  sd_prior : SmoothedBoxPrior

/-- Modelled from the spec: the argument error raised when `n` is not an
integer greater than or equal to 2. -/
def nArgErr : String := "n must be an integer greater than or equal to 2"

/-- Modelled from the spec: the argument error raised when `eta` contains a
non-positive value. -/
def etaArgErr : String := "eta must be positive"

/-- Modelled from the spec: the dimension error raised by `log_prob` when the
trailing shape of the observed matrix is not `(n, n)`. -/
def dimensionErr : String := "observed matrix does not have trailing shape (n, n)"

/-- Modelled from the spec: construction of `LKJPrior(n, eta, validate_args)`.
When `validate_args` is set, it fails unless `n` is an integer at least 2 and
every concentration value is positive; the checks are opt-in ("only enforced
when validation is explicitly requested"). -/
noncomputable def mkLKJPrior (n : ℚ) (etas : List ℝ) (validateArgs : Bool) :
    Except String LKJPrior :=
  if validateArgs = true ∧ ¬(n.den = 1 ∧ 2 ≤ n) then .error nArgErr
  else if validateArgs = true ∧ ¬(∀ e ∈ etas, 0 < e) then .error etaArgErr
  else .ok ⟨n, etas⟩

/-- Modelled from the spec: `LKJCholeskyFactorPrior` has the "same
normalizing constant and constructor-validation contract as LKJPrior". -/
noncomputable def mkLKJCholeskyFactorPrior (n : ℚ) (etas : List ℝ) (validateArgs : Bool) :
    Except String LKJCholeskyFactorPrior :=
  (mkLKJPrior n etas validateArgs).map fun p => ⟨p.n, p.etas⟩

/-- Modelled from the spec: construction of `LKJCovariancePrior`, with the
`n`/`eta` argument validation "delegated to the correlation prior"; the
scalar-bound `sd_prior` is always broadcast-compatible with `n`. -/
noncomputable def mkLKJCovariancePrior (n : ℚ) (etas : List ℝ) (sd : SmoothedBoxPrior)
    (validateArgs : Bool) : Except String LKJCovariancePrior :=
  (mkLKJPrior n etas validateArgs).map fun p => ⟨p, sd⟩

/-- Modelled from the spec: the LKJ log density of a full correlation matrix,
`C + (eta - 1) * log(det S)`. -/
noncomputable def lkjLogDensity (n : ℕ) (eta : ℝ) (S : Matrix (Fin n) (Fin n) ℝ) : ℝ :=
  lkjC n eta + (eta - 1) * Real.log S.det

/-- Modelled from the spec: `LKJPrior.log_prob` — a dimension error unless the
trailing shape equals `(n, n)`, otherwise `C + (eta - 1) * log(det S)` for
each batch element of `eta` (a single matrix broadcasts against the batch). -/
noncomputable def LKJPrior.logProb (p : LKJPrior) (m : ℕ)
    (S : Matrix (Fin m) (Fin m) ℝ) : Except String (List ℝ) :=
  if (m : ℚ) = p.n then .ok (p.etas.map fun eta => lkjLogDensity m eta S)
  else .error dimensionErr

/-- Modelled from the spec: the LKJ log density of a Cholesky factor,
`C + sum_i (eta - 1 + (n - i - 1)/2) * 2 * log(L_ii)` over the diagonal
entries `i = 0 .. n-1`. -/
noncomputable def lkjCholLogDensity (n : ℕ) (eta : ℝ) (L : Matrix (Fin n) (Fin n) ℝ) : ℝ :=
  lkjC n eta + ∑ i : Fin n, (eta - 1 + ((n : ℝ) - (i : ℕ) - 1) / 2) * (2 * Real.log (L i i))

/-- Modelled from the spec: `LKJCholeskyFactorPrior.log_prob` — a dimension
error unless the trailing shape equals `(n, n)`, otherwise the
Cholesky-parameterized log density for each batch element of `eta`. -/
noncomputable def LKJCholeskyFactorPrior.logProb (p : LKJCholeskyFactorPrior) (m : ℕ)
    (L : Matrix (Fin m) (Fin m) ℝ) : Except String (List ℝ) :=
  if (m : ℚ) = p.n then .ok (p.etas.map fun eta => lkjCholLogDensity m eta L)
  else .error dimensionErr

/-- Modelled from the spec: `SmoothedBoxPrior.log_prob` of a vector — the sum
over coordinates of the log density of a box `[a, b]` smoothed by Gaussian
tails of width `sigma`: `-d(x)^2/(2 sigma^2) - log(sqrt(2 pi) sigma)
- log(1 + (b - a)/(sqrt(2 pi) sigma))` where `d(x)` is the distance of `x`
from the box. -/
noncomputable def SmoothedBoxPrior.logProb (q : SmoothedBoxPrior) (m : ℕ)
    (x : Fin m → ℝ) : ℝ :=
  ∑ i : Fin m,
    (-(max (|x i - (q.a + q.b) / 2| - (q.b - q.a) / 2) 0) ^ 2 / (2 * q.sigma ^ 2)
      - Real.log (Real.sqrt (2 * Real.pi) * q.sigma)
      - Real.log (1 + (q.b - q.a) / (Real.sqrt (2 * Real.pi) * q.sigma)))

/-- Modelled from the spec: `LKJCovariancePrior.log_prob` — extract the
marginal standard deviations as the square root of the diagonal, normalize
`S` by the diagonal matrix of their reciprocals to the implied correlation
matrix `R`, and return `correlation_prior.log_prob(R) +
sd_prior.log_prob(marginal_sd)`. -/
noncomputable def LKJCovariancePrior.logProb (p : LKJCovariancePrior) (m : ℕ)
    (S : Matrix (Fin m) (Fin m) ℝ) : Except String (List ℝ) :=
  let sd : Fin m → ℝ := fun i => Real.sqrt (S i i)
  let Dinv : Matrix (Fin m) (Fin m) ℝ := Matrix.diagonal fun i => 1 / sd i
  match p.correlation_prior.logProb m (Dinv * S * Dinv) with
  | .error e => .error e
  | .ok l => .ok (l.map fun c => c + p.sd_prior.logProb m sd)

/-- Modelled from the spec: one pass of the onion-method construction.  Row
`i` of the Cholesky factor carries the sampled magnitude `r i` times the
sampled direction `u i` on its strictly-lower part, the diagonal entry is
"set so the row norm is exactly 1", and the strictly-upper part is zero.
`r` and `u` are the realized values of the reparameterized Beta and
uniform-direction draws. -/
noncomputable def onionCholesky (n : ℕ) (r : Fin n → ℝ) (u : Fin n → Fin n → ℝ) :
    Matrix (Fin n) (Fin n) ℝ :=
  fun i j =>
    if (j : ℕ) < (i : ℕ) then r i * u i j
    else if j = i then
      Real.sqrt (1 - ∑ k ∈ Finset.univ.filter (fun k : Fin n => (k : ℕ) < (i : ℕ)),
        (r i * u i k) ^ 2)
    else 0

/-- Modelled from the spec: `LKJCholeskyFactorPrior.rsample` applied to one
noise realization — the onion-method Cholesky factor. -/
noncomputable def LKJCholeskyFactorPrior.rsample (_p : LKJCholeskyFactorPrior) (n : ℕ)
    (r : Fin n → ℝ) (u : Fin n → Fin n → ℝ) : Matrix (Fin n) (Fin n) ℝ :=
  onionCholesky n r u

/-- Modelled from the spec: `LKJPrior.rsample` applied to one noise
realization — sample a Cholesky factor and reconstruct `L * Lᵗ`. -/
noncomputable def LKJPrior.rsample (_p : LKJPrior) (n : ℕ)
    (r : Fin n → ℝ) (u : Fin n → Fin n → ℝ) : Matrix (Fin n) (Fin n) ℝ :=
  onionCholesky n r u * (onionCholesky n r u).transpose

/-! Numeric bounds on the logarithms entering the pinned literal values. -/

lemma log_one_add_bounds (a lo hi : ℝ) (h0 : 0 < a) (h1 : a < 1)
    (hlo : lo ≤ a - a^2/2 + a^3/3 - a^4/4 + a^5/5 - a^6/6 - a^7/(1-a))
    (hhi : a - a^2/2 + a^3/3 - a^4/4 + a^5/5 - a^6/6 + a^7/(1-a) ≤ hi) :
    lo ≤ Real.log (1 + a) ∧ Real.log (1 + a) ≤ hi := by
  have hx : |(-a)| < 1 := by rw [abs_neg, abs_of_pos h0]; exact h1
  have h := Real.abs_log_sub_add_sum_range_le hx 6
  rw [abs_neg, abs_of_pos h0] at h
  rw [show (1:ℝ) - (-a) = 1 + a by ring] at h
  have hsum : (∑ i ∈ Finset.range 6, (-a)^(i+1)/(i+1)) =
      -a + a^2/2 - a^3/3 + a^4/4 - a^5/5 + a^6/6 := by
    norm_num [Finset.sum_range_succ]
    ring
  rw [hsum, abs_le] at h
  constructor
  · nlinarith [h.1]
  · nlinarith [h.2]

lemma log_nine_eighths_bounds :
    (0.1177824 : ℝ) ≤ Real.log (9/8) ∧ Real.log (9/8) ≤ 0.1177836 := by
  have h := log_one_add_bounds (1/8) 0.1177824 0.1177836 (by norm_num) (by norm_num)
    (by norm_num) (by norm_num)
  rwa [show (1:ℝ) + 1/8 = 9/8 by norm_num] at h

lemma log_three_eq : Real.log 3 = (3 * Real.log 2 + Real.log (9/8)) / 2 := by
  have h9 : Real.log (9/8) = Real.log 9 - Real.log 8 :=
    Real.log_div (by norm_num) (by norm_num)
  have h3 : Real.log 9 = 2 * Real.log 3 := by
    rw [show (9:ℝ) = 3^2 by norm_num, Real.log_pow]; push_cast; ring
  have h2 : Real.log 8 = 3 * Real.log 2 := by
    rw [show (8:ℝ) = 2^3 by norm_num, Real.log_pow]; push_cast; ring
  rw [h3, h2] at h9
  linarith

lemma log_three_bounds : (1.0986119 : ℝ) ≤ Real.log 3 ∧ Real.log 3 ≤ 1.0986126 := by
  have h98 := log_nine_eighths_bounds
  have h2l := Real.log_two_gt_d9
  have h2u := Real.log_two_lt_d9
  rw [log_three_eq]
  constructor <;> [nlinarith [h98.1]; nlinarith [h98.2]]

lemma log_pi_div_three_bounds :
    (0.0461173 : ℝ) ≤ Real.log (Real.pi / 3) ∧ Real.log (Real.pi / 3) ≤ 0.0461178 := by
  have hlo := log_one_add_bounds 0.0471973 0.04611735 0.04611737 (by norm_num) (by norm_num)
    (by norm_num) (by norm_num)
  have hhi := log_one_add_bounds 0.0471977 0.0461173 0.0461178 (by norm_num) (by norm_num)
    (by norm_num) (by norm_num)
  have e1 : (1:ℝ) + 0.0471973 = 1.0471973 := by norm_num
  have e2 : (1:ℝ) + 0.0471977 = 1.0471977 := by norm_num
  rw [e1] at hlo; rw [e2] at hhi
  have hp1 : (1.0471973 : ℝ) < Real.pi / 3 := by
    have := Real.pi_gt_d6; linarith
  have hp2 : Real.pi / 3 < (1.0471977 : ℝ) := by
    have := Real.pi_lt_d6; linarith
  have m1 : Real.log (1.0471973 : ℝ) < Real.log (Real.pi / 3) :=
    Real.log_lt_log (by norm_num) hp1
  have m2 : Real.log (Real.pi / 3) < Real.log (1.0471977 : ℝ) :=
    Real.log_lt_log (by positivity) hp2
  constructor
  · linarith [hlo.1]
  · linarith [hhi.2]

lemma log_pi_bounds : (1.1447292 : ℝ) ≤ Real.log Real.pi ∧ Real.log Real.pi ≤ 1.1447304 := by
  have hd : Real.log (Real.pi / 3) = Real.log Real.pi - Real.log 3 :=
    Real.log_div Real.pi_ne_zero (by norm_num)
  have h3 := log_three_bounds
  have hp3 := log_pi_div_three_bounds
  rw [hd] at hp3
  constructor <;> linarith [h3.1, h3.2, hp3.1, hp3.2]

lemma sqrt_two_pi_bounds :
    (2.506627 : ℝ) ≤ Real.sqrt (2 * Real.pi) ∧ Real.sqrt (2 * Real.pi) ≤ 2.506630 := by
  have h0 : (0:ℝ) ≤ 2 * Real.pi := by positivity
  have hs := Real.sq_sqrt h0
  have hnn := Real.sqrt_nonneg (2 * Real.pi)
  have hl := Real.pi_gt_d6
  have hu := Real.pi_lt_d6
  constructor <;> nlinarith [hs, hnn, hl, hu]

lemma boxA_bounds :
    (2.37546865 : ℝ) ≤ Real.exp 1 - Real.exp (-1) + Real.sqrt (2 * Real.pi) * (1/100) ∧
      Real.exp 1 - Real.exp (-1) + Real.sqrt (2 * Real.pi) * (1/100) ≤ 2.37546869 := by
  have h1 := Real.exp_one_gt_d9
  have h2 := Real.exp_one_lt_d9
  have h3 := Real.exp_neg_one_gt_d9
  have h4 := Real.exp_neg_one_lt_d9
  have h5 := sqrt_two_pi_bounds
  constructor <;> nlinarith [h5.1, h5.2]

lemma log_boxA_bounds :
    (0.8651938 : ℝ) ≤ Real.log (Real.exp 1 - Real.exp (-1) + Real.sqrt (2 * Real.pi) * (1/100)) ∧
      Real.log (Real.exp 1 - Real.exp (-1) + Real.sqrt (2 * Real.pi) * (1/100)) ≤ 0.8651956 := by
  set A := Real.exp 1 - Real.exp (-1) + Real.sqrt (2 * Real.pi) * (1/100) with hA
  have hAb := boxA_bounds
  rw [← hA] at hAb
  have hApos : (0:ℝ) < A := lt_of_lt_of_le (by norm_num) hAb.1
  have hfrac : Real.log ((4/9) * A) = Real.log (4/9) + Real.log A :=
    Real.log_mul (by norm_num) (ne_of_gt hApos)
  have h49 : Real.log ((4:ℝ)/9) = 2 * Real.log 2 - 2 * Real.log 3 := by
    rw [Real.log_div (by norm_num) (by norm_num)]
    rw [show (4:ℝ) = 2^2 by norm_num, show (9:ℝ) = 3^2 by norm_num, Real.log_pow, Real.log_pow]
    push_cast; ring
  have hlo := log_one_add_bounds 0.0557638 0.0542644 0.0542645 (by norm_num) (by norm_num)
    (by norm_num) (by norm_num)
  have hhi := log_one_add_bounds 0.0557639 0.0542645 0.0542647 (by norm_num) (by norm_num)
    (by norm_num) (by norm_num)
  have e1 : (1:ℝ) + 0.0557638 = 1.0557638 := by norm_num
  have e2 : (1:ℝ) + 0.0557639 = 1.0557639 := by norm_num
  rw [e1] at hlo; rw [e2] at hhi
  have hq1 : (1.0557638 : ℝ) < (4/9) * A := by nlinarith [hAb.1]
  have hq2 : (4/9) * A < (1.0557639 : ℝ) := by nlinarith [hAb.2]
  have m1 : Real.log (1.0557638 : ℝ) < Real.log ((4/9) * A) :=
    Real.log_lt_log (by norm_num) hq1
  have m2 : Real.log ((4/9) * A) < Real.log (1.0557639 : ℝ) :=
    Real.log_lt_log (by positivity) hq2
  have h3b := log_three_bounds
  have h2l := Real.log_two_gt_d9
  have h2u := Real.log_two_lt_d9
  rw [hfrac, h49] at m1 m2
  constructor <;> linarith [hlo.1, hhi.2, h3b.1, h3b.2]

lemma Gamma_two_eq : Real.Gamma 2 = 1 := by
  have h := Real.Gamma_add_one (s := 1) one_ne_zero
  rw [Real.Gamma_one] at h
  norm_num at h
  convert h using 2
  norm_num

lemma Gamma_three_eq : Real.Gamma 3 = 2 := by
  have h := Real.Gamma_add_one (s := 2) two_ne_zero
  rw [Gamma_two_eq] at h
  rw [show (3:ℝ) = 2 + 1 by norm_num, h]
  norm_num

lemma Gamma_three_halves_eq : Real.Gamma (3/2) = Real.sqrt Real.pi / 2 := by
  have h := Real.Gamma_add_one (s := 1/2) (by norm_num)
  rw [Real.Gamma_one_half_eq] at h
  rw [show (3:ℝ)/2 = 1/2 + 1 by norm_num, h]
  ring

lemma lkjC_two (eta : ℝ) :
    lkjC 2 eta = (2 * eta - 1) * Real.log 2 + (2 * Real.log Real.pi - 6 * Real.log 2) := by
  unfold lkjC
  rw [Finset.sum_range_succ, Finset.sum_range_succ, Finset.sum_range_zero,
    Finset.sum_range_succ, Finset.sum_range_succ, Finset.sum_range_zero]
  push_cast
  rw [show (0:ℝ)/2 + 1 = 1 by norm_num, show (0:ℝ) + 2 = 2 by norm_num,
    show (1:ℝ)/2 + 1 = 3/2 by norm_num, show (1:ℝ) + 2 = 3 by norm_num,
    Real.Gamma_one, Gamma_two_eq, Gamma_three_eq, Gamma_three_halves_eq]
  rw [Real.log_one, Real.log_div (by positivity) (by norm_num),
    Real.log_sqrt Real.pi_pos.le]
  ring

lemma mkLKJPrior_err_n {n : ℚ} {etas : List ℝ} (h : ¬(n.den = 1 ∧ 2 ≤ n)) :
    mkLKJPrior n etas true = .error nArgErr := by
  unfold mkLKJPrior
  rw [if_pos ⟨rfl, h⟩]

lemma mkLKJPrior_err_eta {n : ℚ} {etas : List ℝ} (h1 : n.den = 1 ∧ 2 ≤ n)
    (h2 : ¬(∀ e ∈ etas, 0 < e)) : mkLKJPrior n etas true = .error etaArgErr := by
  unfold mkLKJPrior
  rw [if_neg (fun hc => hc.2 h1), if_pos ⟨rfl, h2⟩]

lemma mkLKJPrior_ok {n : ℚ} {etas : List ℝ} (h1 : n.den = 1 ∧ 2 ≤ n)
    (h2 : ∀ e ∈ etas, 0 < e) : mkLKJPrior n etas true = .ok ⟨n, etas⟩ := by
  unfold mkLKJPrior
  rw [if_neg (fun hc => hc.2 h1), if_neg (fun hc => hc.2 h2)]

lemma mkLKJPrior_no_validate (n : ℚ) (etas : List ℝ) :
    mkLKJPrior n etas false = .ok ⟨n, etas⟩ := by
  unfold mkLKJPrior
  rw [if_neg (fun hc => by simpa using hc.1), if_neg (fun hc => by simpa using hc.1)]

/-- C9: with `validate_args=True`, construction rejects a non-integer `n`
(`LKJPrior(1.5, 1.0)`), rejects a non-positive concentration
(`LKJPrior(2, -1.0)`), and accepts `LKJPrior(2, 1.0)`; the same holds for
`LKJCholeskyFactorPrior` and (for any standard-deviation prior) for
`LKJCovariancePrior`. -/
theorem claim_C9_validate_args :
    mkLKJPrior (3/2) [1] true = .error nArgErr ∧
    mkLKJPrior 2 [-1] true = .error etaArgErr ∧
    mkLKJPrior 2 [1] true = .ok ⟨2, [1]⟩ ∧
    mkLKJCholeskyFactorPrior (3/2) [1] true = .error nArgErr ∧
    mkLKJCholeskyFactorPrior 2 [-1] true = .error etaArgErr ∧
    mkLKJCholeskyFactorPrior 2 [1] true = .ok ⟨2, [1]⟩ ∧
    (∀ sd : SmoothedBoxPrior, mkLKJCovariancePrior (3/2) [1] sd true = .error nArgErr) ∧
    (∀ sd : SmoothedBoxPrior, mkLKJCovariancePrior 2 [-1] sd true = .error etaArgErr) ∧
    (∀ sd : SmoothedBoxPrior, mkLKJCovariancePrior 2 [1] sd true = .ok ⟨⟨2, [1]⟩, sd⟩) := by
  have hn : ¬((3/2 : ℚ).den = 1 ∧ 2 ≤ (3/2 : ℚ)) := fun hc => absurd hc.2 (by norm_num)
  have h2 : (2 : ℚ).den = 1 ∧ 2 ≤ (2 : ℚ) := ⟨by decide, le_refl 2⟩
  have hneg : ¬(∀ e ∈ [(-1 : ℝ)], 0 < e) := by simp
  have hpos : ∀ e ∈ [(1 : ℝ)], 0 < e := by simp
  have e1 := @mkLKJPrior_err_n (3/2) [(1:ℝ)] hn
  have e2 := mkLKJPrior_err_eta h2 hneg
  have e3 := mkLKJPrior_ok h2 hpos
  refine ⟨e1, e2, e3, ?_, ?_, ?_, ?_, ?_, ?_⟩
  · unfold mkLKJCholeskyFactorPrior; rw [e1]; rfl
  · unfold mkLKJCholeskyFactorPrior; rw [e2]; rfl
  · unfold mkLKJCholeskyFactorPrior; rw [e3]; rfl
  · intro sd; unfold mkLKJCovariancePrior; rw [e1]; rfl
  · intro sd; unfold mkLKJCovariancePrior; rw [e2]; rfl
  · intro sd; unfold mkLKJCovariancePrior; rw [e3]; rfl

/-- C8: for all three prior classes, `log_prob` returns the dimension error
whenever the trailing shape `(m, m)` of the input differs from `(n, n)`. -/
theorem claim_C8_dimension_error (nq : ℚ) (etas : List ℝ) (sd : SmoothedBoxPrior)
    (m : ℕ) (S : Matrix (Fin m) (Fin m) ℝ) (h : (m : ℚ) ≠ nq) :
    LKJPrior.logProb ⟨nq, etas⟩ m S = .error dimensionErr ∧
    LKJCholeskyFactorPrior.logProb ⟨nq, etas⟩ m S = .error dimensionErr ∧
    LKJCovariancePrior.logProb ⟨⟨nq, etas⟩, sd⟩ m S = .error dimensionErr := by
  refine ⟨?_, ?_, ?_⟩
  · unfold LKJPrior.logProb; rw [if_neg h]
  · unfold LKJCholeskyFactorPrior.logProb; rw [if_neg h]
  · simp only [LKJCovariancePrior.logProb, LKJPrior.logProb]
    rw [if_neg h]

theorem claim_C8_dimension_error_witness :
    ((3 : ℕ) : ℚ) ≠ (2 : ℚ) ∧
    LKJPrior.logProb ⟨2, [1/2]⟩ 3 (1 : Matrix (Fin 3) (Fin 3) ℝ) = .error dimensionErr ∧
    LKJCholeskyFactorPrior.logProb ⟨2, [1/2]⟩ 3 (1 : Matrix (Fin 3) (Fin 3) ℝ) =
      .error dimensionErr ∧
    LKJCovariancePrior.logProb ⟨⟨2, [1/2]⟩, ⟨0, 1, 1/100⟩⟩ 3 (1 : Matrix (Fin 3) (Fin 3) ℝ) =
      .error dimensionErr :=
  ⟨by norm_num, claim_C8_dimension_error 2 [1/2] ⟨0, 1, 1/100⟩ 3 1 (by norm_num)⟩

/-- C10: the dimension error of `log_prob` is raised unconditionally: a prior
constructed with `validate_args` left `False` still raises it on any input
whose trailing shape is not `(n, n)`. -/
theorem claim_C10_shape_check_unconditional (etas : List ℝ) (m : ℕ)
    (S : Matrix (Fin m) (Fin m) ℝ) (h : (m : ℚ) ≠ 2) :
    mkLKJPrior 2 etas false = .ok ⟨2, etas⟩ ∧
    LKJPrior.logProb ⟨2, etas⟩ m S = .error dimensionErr ∧
    mkLKJCholeskyFactorPrior 2 etas false = .ok ⟨2, etas⟩ ∧
    LKJCholeskyFactorPrior.logProb ⟨2, etas⟩ m S = .error dimensionErr := by
  refine ⟨mkLKJPrior_no_validate 2 etas, ?_, ?_, ?_⟩
  · unfold LKJPrior.logProb; rw [if_neg h]
  · unfold mkLKJCholeskyFactorPrior; rw [mkLKJPrior_no_validate 2 etas]; rfl
  · unfold LKJCholeskyFactorPrior.logProb; rw [if_neg h]

theorem claim_C10_shape_check_unconditional_witness :
    ((4 : ℕ) : ℚ) ≠ (2 : ℚ) ∧
    (mkLKJPrior 2 [1/2] false = .ok ⟨2, [1/2]⟩ ∧
      LKJPrior.logProb ⟨2, [1/2]⟩ 4 (1 : Matrix (Fin 4) (Fin 4) ℝ) = .error dimensionErr ∧
      mkLKJCholeskyFactorPrior 2 [1/2] false = .ok ⟨2, [1/2]⟩ ∧
      LKJCholeskyFactorPrior.logProb ⟨2, [1/2]⟩ 4 (1 : Matrix (Fin 4) (Fin 4) ℝ) =
        .error dimensionErr) :=
  ⟨by norm_num, claim_C10_shape_check_unconditional [1/2] 4 1 (by norm_num)⟩

lemma identity_isValidCorrelationMatrix (m : ℕ) :
    isValidCorrelationMatrix (1 : Matrix (Fin m) (Fin m) ℝ) defaultTol := by
  have htol : (0:ℝ) ≤ defaultTol := by unfold defaultTol; norm_num
  refine ⟨?_, ?_, ?_⟩
  · intro i j
    rcases eq_or_ne i j with hij | hij
    · subst hij; simpa using htol
    · rw [Matrix.one_apply_ne hij, Matrix.one_apply_ne (Ne.symm hij)]
      simpa using htol
  · intro i
    rw [Matrix.one_apply_eq]
    simpa using htol
  · intro x
    have h1 : ∑ i, ∑ j, x i * (1 : Matrix (Fin m) (Fin m) ℝ) i j * x j = ∑ i, x i ^ 2 := by
      refine Finset.sum_congr rfl fun i _ => ?_
      rw [Finset.sum_eq_single i]
      · rw [Matrix.one_apply_eq]; ring
      · intro j _ hj
        rw [Matrix.one_apply_ne (Ne.symm hj)]; ring
      · intro hmem; exact absurd (Finset.mem_univ i) hmem
    rw [h1]
    have h2 : (0:ℝ) ≤ ∑ i, x i ^ 2 := Finset.sum_nonneg fun i _ => sq_nonneg _
    nlinarith

/-- C2: for `eta = 1` the LKJ log density of every valid correlation matrix
equals the precomputed normalizing constant `C`, independently of the matrix,
because the `(eta - 1) * log(det S)` term vanishes. -/
theorem claim_C2_eta_one_constant (n : ℕ) (S : Matrix (Fin n) (Fin n) ℝ)
    (hS : isValidCorrelationMatrix S defaultTol) :
    LKJPrior.logProb ⟨(n : ℚ), [1]⟩ n S = .ok [lkjC n 1] := by
  unfold LKJPrior.logProb
  rw [if_pos rfl]
  unfold lkjLogDensity
  norm_num

theorem claim_C2_eta_one_constant_witness :
    isValidCorrelationMatrix (1 : Matrix (Fin 2) (Fin 2) ℝ) defaultTol ∧
      LKJPrior.logProb ⟨((2 : ℕ) : ℚ), [1]⟩ 2 (1 : Matrix (Fin 2) (Fin 2) ℝ) =
        .ok [lkjC 2 1] :=
  ⟨identity_isValidCorrelationMatrix 2,
    claim_C2_eta_one_constant 2 1 (identity_isValidCorrelationMatrix 2)⟩

lemma lkjC_half_bounds : (-1.8694247 : ℝ) ≤ lkjC 2 (1/2) ∧ lkjC 2 (1/2) ≤ -1.8694222 := by
  have hp := log_pi_bounds
  have h2l := Real.log_two_gt_d9
  have h2u := Real.log_two_lt_d9
  rw [lkjC_two]
  ring_nf
  constructor <;> nlinarith [hp.1, hp.2]

lemma lkjC_one_bounds : (-1.1762776 : ℝ) ≤ lkjC 2 1 ∧ lkjC 2 1 ≤ -1.176275 := by
  have hp := log_pi_bounds
  have h2l := Real.log_two_gt_d9
  have h2u := Real.log_two_lt_d9
  rw [lkjC_two]
  ring_nf
  constructor <;> nlinarith [hp.1, hp.2]

lemma lkjC_three_halves_bounds :
    (-0.4831304 : ℝ) ≤ lkjC 2 (3/2) ∧ lkjC 2 (3/2) ≤ -0.4831278 := by
  have hp := log_pi_bounds
  have h2l := Real.log_two_gt_d9
  have h2u := Real.log_two_lt_d9
  rw [lkjC_two]
  ring_nf
  constructor <;> nlinarith [hp.1, hp.2]

lemma logProb_two_eval (etas : List ℝ) (S : Matrix (Fin 2) (Fin 2) ℝ) :
    LKJPrior.logProb ⟨2, etas⟩ 2 S =
      .ok (etas.map fun eta => lkjC 2 eta + (eta - 1) * Real.log S.det) := by
  unfold LKJPrior.logProb
  rw [if_pos (by norm_num)]
  rfl

lemma log_three_fourths_eq : Real.log (3/4) = Real.log 3 - 2 * Real.log 2 := by
  rw [Real.log_div (by norm_num) (by norm_num), show (4:ℝ) = 2^2 by norm_num, Real.log_pow]
  push_cast; ring

/-- C3: `LKJPrior(2, 0.5).log_prob` evaluates to approximately `-1.86942` at
the identity and to approximately `-1.72558` at `[[1, 0.5], [0.5, 1]]`
(within the `places=4` tolerance `5e-5`). -/
theorem claim_C3_literal_values :
    (LKJPrior.logProb ⟨2, [1/2]⟩ 2 (1 : Matrix (Fin 2) (Fin 2) ℝ) = .ok [lkjC 2 (1/2)] ∧
      |lkjC 2 (1/2) - (-1.86942)| < 0.00005) ∧
    (LKJPrior.logProb ⟨2, [1/2]⟩ 2 (!![1, 1/2; 1/2, 1] : Matrix (Fin 2) (Fin 2) ℝ) =
        .ok [lkjC 2 (1/2) + (1/2 - 1) * Real.log (3/4)] ∧
      |lkjC 2 (1/2) + (1/2 - 1) * Real.log (3/4) - (-1.72558)| < 0.00005) := by
  have hC := lkjC_half_bounds
  have h3 := log_three_bounds
  have h2l := Real.log_two_gt_d9
  have h2u := Real.log_two_lt_d9
  refine ⟨⟨?_, ?_⟩, ⟨?_, ?_⟩⟩
  · rw [logProb_two_eval]; simp [Matrix.det_one]
  · rw [abs_lt]; constructor <;> linarith [hC.1, hC.2]
  · rw [logProb_two_eval,
      show (!![1, 1/2; 1/2, 1] : Matrix (Fin 2) (Fin 2) ℝ).det = 3/4 by
        rw [Matrix.det_fin_two_of]; norm_num]
    simp
  · rw [log_three_fourths_eq, abs_lt]
    constructor <;> linarith [hC.1, hC.2, h3.1, h3.2]

/-- C4 counterexample: `LKJPrior(2, 1.0).log_prob(I_2)` is not within `5e-5`
of `-1.86942`, and it is not the same value as for `eta = 0.5`. -/
theorem claim_C4_counterexample :
    LKJPrior.logProb ⟨2, [1]⟩ 2 (1 : Matrix (Fin 2) (Fin 2) ℝ) = .ok [lkjC 2 1] ∧
    ¬(|lkjC 2 1 - (-1.86942)| < 0.00005) ∧ lkjC 2 1 ≠ lkjC 2 (1/2) := by
  have h1 := lkjC_one_bounds
  have h2l := Real.log_two_gt_d9
  refine ⟨?_, ?_, ?_⟩
  · rw [logProb_two_eval]; simp [Matrix.det_one]
  · rw [abs_lt]
    intro hc
    linarith [h1.1, h1.2, hc.1, hc.2]
  · have hdiff : lkjC 2 1 - lkjC 2 (1/2) = Real.log 2 := by
      rw [lkjC_two, lkjC_two]; ring
    intro hc
    rw [hc] at hdiff
    simp at hdiff
    linarith [hdiff]

/-- C4 amended: `LKJPrior(2, 1.0).log_prob(I_2)` is approximately `-1.17628`
(within `5e-5`), exceeding the `eta = 0.5` value by exactly `log 2` rather
than equalling it. -/
theorem claim_C4_amended :
    LKJPrior.logProb ⟨2, [1]⟩ 2 (1 : Matrix (Fin 2) (Fin 2) ℝ) = .ok [lkjC 2 1] ∧
    |lkjC 2 1 - (-1.17628)| < 0.00005 ∧ lkjC 2 1 = lkjC 2 (1/2) + Real.log 2 := by
  have h1 := lkjC_one_bounds
  refine ⟨?_, ?_, ?_⟩
  · rw [logProb_two_eval]; simp [Matrix.det_one]
  · rw [abs_lt]; constructor <;> linarith [h1.1, h1.2]
  · rw [lkjC_two, lkjC_two]; ring

/-- C6: with the batched concentration `[0.5, 1.5]`, `log_prob` of the single
`2x2` identity broadcasts to the batch shape and returns one value per batch
element, each computed with its own normalizing constant:
approximately `[-1.86942, -0.483129]`. -/
theorem claim_C6_batched_eta :
    LKJPrior.logProb ⟨2, [1/2, 3/2]⟩ 2 (1 : Matrix (Fin 2) (Fin 2) ℝ) =
      .ok [lkjC 2 (1/2), lkjC 2 (3/2)] ∧
    |lkjC 2 (1/2) - (-1.86942)| < 0.00001 ∧
    |lkjC 2 (3/2) - (-0.483129)| < 0.00001 := by
  have hC := lkjC_half_bounds
  have hC3 := lkjC_three_halves_bounds
  refine ⟨?_, ?_, ?_⟩
  · rw [logProb_two_eval]; simp [Matrix.det_one]
  · rw [abs_lt]; constructor <;> linarith [hC.1, hC.2]
  · rw [abs_lt]; constructor <;> linarith [hC3.1, hC3.2]

/-- C1 counterexample: at `n = 3`, `eta = 1`, the lower-triangular
`L = [[1,0,0],[3/5,4/5,0],[0,0,1]]` with positive diagonal satisfies
`L * Lᵗ = S` for the correlation matrix `S = [[1,3/5,0],[3/5,1,0],[0,0,1]]`
exactly, yet the two parameterizations disagree:
`LKJCholeskyFactorPrior.log_prob(L)` carries the extra change-of-variables
term `(1/2) * 2 * log(4/5) ≠ 0` that `LKJPrior.log_prob(S)` lacks. -/
theorem claim_C1_counterexample :
    (!![(1:ℝ), 3/5, 0; 3/5, 1, 0; 0, 0, 1]) =
      (!![(1:ℝ), 0, 0; 3/5, 4/5, 0; 0, 0, 1]) *
        (!![(1:ℝ), 0, 0; 3/5, 4/5, 0; 0, 0, 1]).transpose ∧
    (∀ i j : Fin 3, (i : ℕ) < (j : ℕ) →
      (!![(1:ℝ), 0, 0; 3/5, 4/5, 0; 0, 0, 1]) i j = 0) ∧
    (∀ i : Fin 3, 0 < (!![(1:ℝ), 0, 0; 3/5, 4/5, 0; 0, 0, 1]) i i) ∧
    LKJPrior.logProb ⟨3, [1]⟩ 3 (!![(1:ℝ), 3/5, 0; 3/5, 1, 0; 0, 0, 1]) ≠
      LKJCholeskyFactorPrior.logProb ⟨3, [1]⟩ 3 (!![(1:ℝ), 0, 0; 3/5, 4/5, 0; 0, 0, 1]) := by
  refine ⟨?_, ?_, ?_, ?_⟩
  · have ht : (!![(1:ℝ), 0, 0; 3/5, 4/5, 0; 0, 0, 1]).transpose =
        !![(1:ℝ), 3/5, 0; 0, 4/5, 0; 0, 0, 1] := by
      ext i j
      fin_cases i <;> fin_cases j <;> rfl
    rw [ht, Matrix.mul_fin_three]
    norm_num
  · intro i j hij
    fin_cases i <;> fin_cases j <;> simp_all
  · intro i
    fin_cases i <;> norm_num
  · have hL : LKJPrior.logProb ⟨3, [1]⟩ 3 (!![(1:ℝ), 3/5, 0; 3/5, 1, 0; 0, 0, 1]) =
        .ok [lkjC 3 1] := by
      unfold LKJPrior.logProb
      rw [if_pos (by norm_num)]
      simp [lkjLogDensity]
    have hR : LKJCholeskyFactorPrior.logProb ⟨3, [1]⟩ 3
        (!![(1:ℝ), 0, 0; 3/5, 4/5, 0; 0, 0, 1]) = .ok [lkjC 3 1 + Real.log (4/5)] := by
      unfold LKJCholeskyFactorPrior.logProb
      rw [if_pos (by norm_num)]
      simp only [List.map_cons, List.map_nil]
      unfold lkjCholLogDensity
      rw [Fin.sum_univ_three]
      norm_num
      ring
    rw [hL, hR]
    intro hc
    have hlist : lkjC 3 1 = lkjC 3 1 + Real.log (4/5) := by
      have := (Except.ok.injEq _ _).mp hc
      exact (List.cons.injEq _ _ _ _).mp this |>.1
    have hneg : Real.log (4/5) < 0 := Real.log_neg (by norm_num) (by norm_num)
    linarith [hlist.symm.le, hneg]

/-- C1 amended: for `n = 2` (the only case exercised by the tests) the two
parameterizations do agree: for every positive `eta` and every
lower-triangular `L` with positive diagonal such that `L * Lᵗ = S` exactly
and `S` has a unit leading diagonal entry,
`LKJPrior(2, eta).log_prob(S) = LKJCholeskyFactorPrior(2, eta).log_prob(L)`.
For `n ≥ 3` the two log densities differ by `sum_i (n - 1 - i) * log L_ii`,
so the round trip fails whenever some `L_ii < 1` with `i < n - 1`. -/
theorem claim_C1_amended (eta : ℝ) (heta : 0 < eta) (L S : Matrix (Fin 2) (Fin 2) ℝ)
    (htri : L 0 1 = 0) (hpos : ∀ i, 0 < L i i) (hS : S = L * L.transpose)
    (hdiag : S 0 0 = 1) :
    LKJPrior.logProb ⟨2, [eta]⟩ 2 S = LKJCholeskyFactorPrior.logProb ⟨2, [eta]⟩ 2 L := by
  have h00sq : L 0 0 ^ 2 = 1 := by
    rw [hS, Matrix.mul_apply, Fin.sum_univ_two] at hdiag
    simp [Matrix.transpose_apply, htri] at hdiag
    nlinarith [hdiag]
  have h00 : L 0 0 = 1 := by
    have hf : (L 0 0 - 1) * (L 0 0 + 1) = 0 := by nlinarith
    rcases mul_eq_zero.mp hf with h | h
    · linarith
    · linarith [hpos 0]
  have hdet : S.det = (L 1 1) ^ 2 := by
    rw [hS, Matrix.det_mul, Matrix.det_transpose, Matrix.det_fin_two, htri, h00]
    ring
  unfold LKJPrior.logProb LKJCholeskyFactorPrior.logProb
  rw [if_pos (by norm_num), if_pos (by norm_num)]
  simp only [List.map_cons, List.map_nil]
  unfold lkjLogDensity lkjCholLogDensity
  rw [Fin.sum_univ_two, hdet, h00, Real.log_pow]
  norm_num

theorem claim_C1_amended_witness :
    (0:ℝ) < 1/2 ∧ (1 : Matrix (Fin 2) (Fin 2) ℝ) 0 1 = 0 ∧
    (1 : Matrix (Fin 2) (Fin 2) ℝ) =
      (1 : Matrix (Fin 2) (Fin 2) ℝ) * (1 : Matrix (Fin 2) (Fin 2) ℝ).transpose ∧
    LKJPrior.logProb ⟨2, [1/2]⟩ 2 (1 : Matrix (Fin 2) (Fin 2) ℝ) =
      LKJCholeskyFactorPrior.logProb ⟨2, [1/2]⟩ 2 (1 : Matrix (Fin 2) (Fin 2) ℝ) := by
  have htri : (1 : Matrix (Fin 2) (Fin 2) ℝ) 0 1 = 0 :=
    Matrix.one_apply_ne (by decide)
  have hS : (1 : Matrix (Fin 2) (Fin 2) ℝ) =
      (1 : Matrix (Fin 2) (Fin 2) ℝ) * (1 : Matrix (Fin 2) (Fin 2) ℝ).transpose := by
    rw [Matrix.transpose_one, mul_one]
  refine ⟨by norm_num, htri, hS, ?_⟩
  exact claim_C1_amended (1/2) (by norm_num) 1 1 htri
    (fun i => by rw [Matrix.one_apply_eq]; norm_num) hS (Matrix.one_apply_eq 0)

lemma smoothedBox_logProb_at_one :
    SmoothedBoxPrior.logProb ⟨Real.exp (-1), Real.exp 1, 1/100⟩ 2 (fun _ => 1) =
      -2 * Real.log (Real.exp 1 - Real.exp (-1) + Real.sqrt (2 * Real.pi) * (1/100)) := by
  have hX : (0:ℝ) < Real.sqrt (2 * Real.pi) * (1/100) := by positivity
  have ha : Real.exp (-1) < 1 := lt_trans Real.exp_neg_one_lt_d9 (by norm_num)
  have hb : (1:ℝ) < Real.exp 1 := lt_trans (by norm_num) Real.exp_one_gt_d9
  have hXY : (0:ℝ) < Real.exp 1 - Real.exp (-1) + Real.sqrt (2 * Real.pi) * (1/100) := by
    linarith
  have hmax :
      max (|(1:ℝ) - (Real.exp (-1) + Real.exp 1) / 2| - (Real.exp 1 - Real.exp (-1)) / 2) 0
        = 0 := by
    apply max_eq_right
    rw [sub_nonpos, abs_le]
    constructor <;> linarith
  have hcomb :
      -Real.log (Real.sqrt (2 * Real.pi) * (1/100)) -
          Real.log (1 + (Real.exp 1 - Real.exp (-1)) / (Real.sqrt (2 * Real.pi) * (1/100))) =
        -Real.log (Real.exp 1 - Real.exp (-1) + Real.sqrt (2 * Real.pi) * (1/100)) := by
    rw [show (1:ℝ) + (Real.exp 1 - Real.exp (-1)) / (Real.sqrt (2 * Real.pi) * (1/100)) =
        (Real.exp 1 - Real.exp (-1) + Real.sqrt (2 * Real.pi) * (1/100)) /
          (Real.sqrt (2 * Real.pi) * (1/100)) by field_simp; ring]
    rw [Real.log_div (ne_of_gt hXY) (ne_of_gt hX)]
    ring
  unfold SmoothedBoxPrior.logProb
  rw [Fin.sum_univ_two]
  simp only
  rw [hmax]
  rw [show (-(0:ℝ)^2 / (2 * (1/100)^2) : ℝ) = 0 by norm_num]
  linarith [hcomb]

/-- C5: `LKJCovariancePrior.log_prob(S)` decomposes as
`correlation_prior.log_prob(R) + sd_prior.log_prob(sqrt(diag S))` with
`R = D⁻¹ S D⁻¹`, `D⁻¹` the diagonal matrix of reciprocal square-rooted
diagonal entries; in particular for `n = 2`, `eta = 0.5` and the
`SmoothedBoxPrior(e⁻¹, e)` standard-deviation prior, `log_prob(I_2)` is
approximately `-3.59981` (within `5e-5`). -/
theorem claim_C5_covariance_decomposition :
    (∀ (p : LKJCovariancePrior) (m : ℕ) (S : Matrix (Fin m) (Fin m) ℝ),
      p.logProb m S =
        Except.map
          (fun l => l.map fun c => c + p.sd_prior.logProb m fun i => Real.sqrt (S i i))
          (p.correlation_prior.logProb m
            ((Matrix.diagonal fun i => 1 / Real.sqrt (S i i)) * S *
              Matrix.diagonal fun i => 1 / Real.sqrt (S i i)))) ∧
    LKJCovariancePrior.logProb ⟨⟨2, [1/2]⟩, ⟨Real.exp (-1), Real.exp 1, 1/100⟩⟩ 2
        (1 : Matrix (Fin 2) (Fin 2) ℝ) =
      .ok [lkjC 2 (1/2) +
        -2 * Real.log (Real.exp 1 - Real.exp (-1) + Real.sqrt (2 * Real.pi) * (1/100))] ∧
    |lkjC 2 (1/2) +
        -2 * Real.log (Real.exp 1 - Real.exp (-1) + Real.sqrt (2 * Real.pi) * (1/100)) -
      (-3.59981)| < 0.00005 := by
  refine ⟨?_, ?_, ?_⟩
  · intro p m S
    simp only [LKJCovariancePrior.logProb]
    generalize p.correlation_prior.logProb m
      ((Matrix.diagonal fun i => 1 / Real.sqrt (S i i)) * S *
        Matrix.diagonal fun i => 1 / Real.sqrt (S i i)) = z
    cases z <;> simp [Except.map]
  · have hDfun : (fun i : Fin 2 => 1 / Real.sqrt ((1 : Matrix (Fin 2) (Fin 2) ℝ) i i)) =
        fun _ => (1:ℝ) := by
      funext i; rw [Matrix.one_apply_eq, Real.sqrt_one]; norm_num
    have hsdfun : (fun i : Fin 2 => Real.sqrt ((1 : Matrix (Fin 2) (Fin 2) ℝ) i i)) =
        fun _ : Fin 2 => (1:ℝ) := by
      funext i; rw [Matrix.one_apply_eq, Real.sqrt_one]
    simp only [LKJCovariancePrior.logProb]
    rw [hDfun, Matrix.diagonal_one, one_mul, one_mul, logProb_two_eval]
    rw [hsdfun, smoothedBox_logProb_at_one]
    simp [Matrix.det_one, neg_mul]
  · have hC := lkjC_half_bounds
    have hA := log_boxA_bounds
    rw [abs_lt]
    constructor <;> linarith [hC.1, hC.2, hA.1, hA.2]

lemma onion_row_norm (n : ℕ) (r : Fin n → ℝ) (u : Fin n → Fin n → ℝ) (i : Fin n)
    (hs : ∑ k ∈ Finset.univ.filter (fun k : Fin n => (k : ℕ) < (i : ℕ)),
      (r i * u i k) ^ 2 ≤ 1) :
    ∑ j, (onionCholesky n r u i j) ^ 2 = 1 := by
  have hsplit := Finset.sum_filter_add_sum_filter_not Finset.univ
    (fun j : Fin n => (j : ℕ) < (i : ℕ)) (fun j => (onionCholesky n r u i j) ^ 2)
  have hlow : ∑ j ∈ Finset.univ.filter (fun j : Fin n => (j : ℕ) < (i : ℕ)),
      (onionCholesky n r u i j) ^ 2 =
      ∑ j ∈ Finset.univ.filter (fun j : Fin n => (j : ℕ) < (i : ℕ)), (r i * u i j) ^ 2 := by
    refine Finset.sum_congr rfl fun j hj => ?_
    rw [Finset.mem_filter] at hj
    unfold onionCholesky
    rw [if_pos hj.2]
  have hhigh : ∑ j ∈ Finset.univ.filter (fun j : Fin n => ¬(j : ℕ) < (i : ℕ)),
      (onionCholesky n r u i j) ^ 2 =
      (Real.sqrt (1 - ∑ k ∈ Finset.univ.filter (fun k : Fin n => (k : ℕ) < (i : ℕ)),
        (r i * u i k) ^ 2)) ^ 2 := by
    have hcongr : ∑ j ∈ Finset.univ.filter (fun j : Fin n => ¬(j : ℕ) < (i : ℕ)),
        (onionCholesky n r u i j) ^ 2 =
        ∑ j ∈ Finset.univ.filter (fun j : Fin n => ¬(j : ℕ) < (i : ℕ)),
          (if j = i then
            (Real.sqrt (1 - ∑ k ∈ Finset.univ.filter (fun k : Fin n => (k : ℕ) < (i : ℕ)),
              (r i * u i k) ^ 2)) ^ 2
          else 0) := by
      refine Finset.sum_congr rfl fun j hj => ?_
      rw [Finset.mem_filter] at hj
      unfold onionCholesky
      rw [if_neg hj.2]
      rcases eq_or_ne j i with hji | hji
      · rw [if_pos hji, if_pos hji]
      · rw [if_neg hji, if_neg hji]
        norm_num
    rw [hcongr, Finset.sum_ite_eq' _ i]
    rw [if_pos (Finset.mem_filter.mpr ⟨Finset.mem_univ i, by omega⟩)]
  rw [← hsplit, hlow, hhigh, Real.sq_sqrt (by linarith)]
  ring

lemma sq_sum_identity (n : ℕ) (L : Matrix (Fin n) (Fin n) ℝ) (x : Fin n → ℝ) :
    ∑ i, ∑ j, x i * (L * L.transpose) i j * x j = ∑ k, (∑ i, x i * L i k) ^ 2 := by
  have hterm : ∀ i j : Fin n, x i * (L * L.transpose) i j * x j =
      ∑ k, (x i * L i k) * (x j * L j k) := by
    intro i j
    rw [Matrix.mul_apply]
    simp only [Matrix.transpose_apply]
    rw [Finset.mul_sum, Finset.sum_mul]
    exact Finset.sum_congr rfl fun k _ => by ring
  calc ∑ i, ∑ j, x i * (L * L.transpose) i j * x j
      = ∑ i, ∑ j, ∑ k, (x i * L i k) * (x j * L j k) := by
        exact Finset.sum_congr rfl fun i _ => Finset.sum_congr rfl fun j _ => hterm i j
    _ = ∑ i, ∑ k, ∑ j, (x i * L i k) * (x j * L j k) := by
        exact Finset.sum_congr rfl fun i _ => Finset.sum_comm
    _ = ∑ k, ∑ i, ∑ j, (x i * L i k) * (x j * L j k) := Finset.sum_comm
    _ = ∑ k, (∑ i, x i * L i k) ^ 2 := by
        refine Finset.sum_congr rfl fun k _ => ?_
        rw [sq, Finset.sum_mul_sum]

/-- C7: for every realization of the reparameterized noise — magnitudes
`r i` with `|r i| ≤ 1` (the Beta draw) and directions `u i` of unit norm on
the already-built coordinates (the normalized Gaussian draw) — and for every
`(n, eta)` and tolerance `tol ≥ 0`, the matrix drawn by
`LKJCholeskyFactorPrior.rsample` is a valid correlation-matrix Cholesky
factor and the matrix drawn by `LKJPrior.rsample` is a valid correlation
matrix. -/
theorem claim_C7_rsample_valid (p : LKJPrior) (q : LKJCholeskyFactorPrior) (n : ℕ)
    (r : Fin n → ℝ) (u : Fin n → Fin n → ℝ) (tol : ℝ) (htol : 0 ≤ tol)
    (hr : ∀ i, |r i| ≤ 1)
    (hu : ∀ i : Fin n, 0 < (i : ℕ) →
      ∑ k ∈ Finset.univ.filter (fun k : Fin n => (k : ℕ) < (i : ℕ)), (u i k) ^ 2 = 1) :
    isValidCorrelationMatrixCholeskyFactor (q.rsample n r u) tol ∧
      isValidCorrelationMatrix (p.rsample n r u) tol := by
  have hs : ∀ i : Fin n,
      ∑ k ∈ Finset.univ.filter (fun k : Fin n => (k : ℕ) < (i : ℕ)),
        (r i * u i k) ^ 2 ≤ 1 := by
    intro i
    rcases Nat.eq_zero_or_pos (i : ℕ) with h0 | h0
    · rw [Finset.sum_eq_zero]
      · norm_num
      · intro k hk
        rw [Finset.mem_filter] at hk
        omega
    · have hfac : ∑ k ∈ Finset.univ.filter (fun k : Fin n => (k : ℕ) < (i : ℕ)),
          (r i * u i k) ^ 2 =
          (r i) ^ 2 * ∑ k ∈ Finset.univ.filter (fun k : Fin n => (k : ℕ) < (i : ℕ)),
            (u i k) ^ 2 := by
        rw [Finset.mul_sum]
        exact Finset.sum_congr rfl fun k _ => by ring
      rw [hfac, hu i h0, mul_one]
      exact (sq_le_one_iff_abs_le_one (a := r i)).mpr (hr i)
  have hrow : ∀ i : Fin n, ∑ j, (onionCholesky n r u i j) ^ 2 = 1 :=
    fun i => onion_row_norm n r u i (hs i)
  have hdiagM : ∀ i : Fin n,
      (onionCholesky n r u * (onionCholesky n r u).transpose) i i = 1 := by
    intro i
    rw [Matrix.mul_apply]
    simp only [Matrix.transpose_apply]
    rw [show ∑ k, onionCholesky n r u i k * onionCholesky n r u i k =
        ∑ k, (onionCholesky n r u i k) ^ 2 from
      Finset.sum_congr rfl fun k _ => (sq (onionCholesky n r u i k)).symm]
    exact hrow i
  constructor
  · constructor
    · intro i j hij
      unfold LKJCholeskyFactorPrior.rsample onionCholesky
      rw [if_neg (by omega), if_neg (fun hji => by rw [hji] at hij; omega)]
    · intro i
      unfold LKJCholeskyFactorPrior.rsample
      rw [hrow i]
      simpa using htol
  · refine ⟨?_, ?_, ?_⟩
    · intro i j
      have hsym : (onionCholesky n r u * (onionCholesky n r u).transpose) i j =
          (onionCholesky n r u * (onionCholesky n r u).transpose) j i := by
        rw [Matrix.mul_apply, Matrix.mul_apply]
        simp only [Matrix.transpose_apply]
        exact Finset.sum_congr rfl fun k _ => by ring
      unfold LKJPrior.rsample
      rw [hsym, sub_self, abs_zero]
      exact htol
    · intro i
      unfold LKJPrior.rsample
      rw [hdiagM i, sub_self, abs_zero]
      exact htol
    · intro x
      unfold LKJPrior.rsample
      rw [sq_sum_identity]
      have h1 : (0:ℝ) ≤ ∑ k, (∑ i, x i * onionCholesky n r u i k) ^ 2 :=
        Finset.sum_nonneg fun k _ => sq_nonneg _
      have h2 : (0:ℝ) ≤ ∑ i, x i ^ 2 := Finset.sum_nonneg fun i _ => sq_nonneg _
      nlinarith

theorem claim_C7_rsample_valid_witness :
    (0:ℝ) ≤ 1/1000000 ∧ (∀ i : Fin 2, |(fun _ : Fin 2 => (1:ℝ)/2) i| ≤ 1) ∧
    isValidCorrelationMatrixCholeskyFactor
      (LKJCholeskyFactorPrior.rsample ⟨2, [1/2]⟩ 2 (fun _ => 1/2) (fun _ _ => 1))
      (1/1000000) ∧
    isValidCorrelationMatrix
      (LKJPrior.rsample ⟨2, [1/2]⟩ 2 (fun _ => 1/2) (fun _ _ => 1)) (1/1000000) := by
  have hr : ∀ i : Fin 2, |(fun _ : Fin 2 => (1:ℝ)/2) i| ≤ 1 := fun _ => by
    rw [abs_le]; constructor <;> norm_num
  have hu : ∀ i : Fin 2, 0 < (i : ℕ) →
      ∑ k ∈ Finset.univ.filter (fun k : Fin 2 => (k : ℕ) < (i : ℕ)),
        ((fun _ _ : Fin 2 => (1:ℝ)) i k) ^ 2 = 1 := by
    intro i hi
    fin_cases i
    · simp at hi
    · rw [Finset.sum_filter, Fin.sum_univ_two]
      norm_num
  have h := claim_C7_rsample_valid ⟨2, [1/2]⟩ ⟨2, [1/2]⟩ 2 (fun _ => 1/2) (fun _ _ => 1)
    (1/1000000) (by norm_num) hr hu
  exact ⟨by norm_num, hr, h.1, h.2⟩
